import Mathlib

/-!
Verification of the composition engine of the WirelessMessage firmware
(src/input_method/input_method.cpp and the alphabet-mode glue of
src/main.cpp), as a shallow embedding.

Modelling conventions:
* Arduino String is modelled at character granularity as a list of
  characters (type Str); the strings handled by the engine are ASCII and
  dictionary characters, for which character positions and byte positions
  coincide, and UTF-8 byte order agrees with code-point order, so strcmp
  order is the lexicographic order on characters.
* The tone normalizer manipulates raw bytes through String.replace, so it is
  modelled separately at byte granularity (lists of natural numbers below
  256) with the exact UTF-8 byte sequences of the C++ string literals.
* std::map contents are association lists in key order with unique keys;
  std::set of String is a list in ascending strLt order without duplicates.
* millis() timestamps are natural numbers compared through 32-bit unsigned
  subtraction (sub32).
* The mutable globals of the firmware (inputBuffer, pinyinBuffer,
  candidates, candidateIndex, composing, charFrequency) together with the
  static locals of handlePinyinInput and the mode flags of main.cpp form
  the record IMState; each C++ function becomes a function from IMState to
  IMState, and the dictionary py2hz is passed as a parameter.
* I/O (SPIFFS loads and saves, serial prints) performs no mutation of the
  modelled state and is dropped.
-/


/-! ### Character strings and their strcmp order -/

abbrev Str := List Char

def lit (s : String) : Str := s.toList

/-- Lookup in an association list modelling std::map contents. -/
def mapFind {α : Type} (k : Str) : List (Str × α) → Option α
  | [] => none
  | p :: t => if p.1 = k then some p.2 else mapFind k t

def strLt : Str → Str → Bool
  | [], [] => false
  | [], _ :: _ => true
  | _ :: _, [] => false
  | a :: as, b :: bs => if a < b then true else if b < a then false else strLt as bs

theorem strLt_irrefl : ∀ a : Str, strLt a a = false := by
  intro a
  induction a with
  | nil => rfl
  | cons c t ih => simp [strLt, ih]

theorem strLt_trans : ∀ {a b c : Str}, strLt a b = true → strLt b c = true →
    strLt a c = true := by
  intro a
  induction a with
  | nil =>
    intro b c hab hbc
    cases b with
    | nil => simp [strLt] at hab
    | cons x xs =>
      cases c with
      | nil => simp [strLt] at hbc
      | cons y ys => simp [strLt]
  | cons x xs ih =>
    intro b c hab hbc
    cases b with
    | nil => simp [strLt] at hab
    | cons y ys =>
      cases c with
      | nil => simp [strLt] at hbc
      | cons z zs =>
        rw [strLt] at hab hbc ⊢
        by_cases hxy : x < y
        · by_cases hyz : y < z
          · rw [if_pos (lt_trans hxy hyz)]
          · rw [if_neg hyz] at hbc
            by_cases hzy : z < y
            · simp [if_pos hzy] at hbc
            · have hyez : y = z := le_antisymm (not_lt.mp hzy) (not_lt.mp hyz)
              rw [if_pos (hyez ▸ hxy)]
        · rw [if_neg hxy] at hab
          by_cases hyx : y < x
          · simp [if_pos hyx] at hab
          · rw [if_neg hyx] at hab
            have hxey : x = y := le_antisymm (not_lt.mp hyx) (not_lt.mp hxy)
            subst hxey
            by_cases hxz : x < z
            · rw [if_pos hxz]
            · rw [if_neg hxz] at hbc ⊢
              by_cases hzx : z < x
              · simp [if_pos hzx] at hbc
              · rw [if_neg hzx] at hbc ⊢
                exact ih hab hbc

theorem strLt_conn : ∀ {a b : Str}, strLt a b = false → strLt b a = false → a = b := by
  intro a
  induction a with
  | nil =>
    intro b hab _
    cases b with
    | nil => rfl
    | cons y ys => simp [strLt] at hab
  | cons x xs ih =>
    intro b hab hba
    cases b with
    | nil => simp [strLt] at hba
    | cons y ys =>
      rw [strLt] at hab hba
      by_cases hxy : x < y
      · simp [if_pos hxy] at hab
      · rw [if_neg hxy] at hab
        by_cases hyx : y < x
        · simp [if_pos hyx] at hba
        · rw [if_neg hyx] at hab
          rw [if_neg hyx, if_neg hxy] at hba
          have hxey : x = y := le_antisymm (not_lt.mp hyx) (not_lt.mp hxy)
          rw [hxey, ih hab hba]

theorem strLt_ne {a b : Str} (h : strLt a b = true) : a ≠ b := by
  intro he
  subst he
  rw [strLt_irrefl] at h
  exact Bool.false_ne_true h

theorem strLt_asymm {a b : Str} (h1 : strLt a b = true) (h2 : strLt b a = true) :
    False := absurd rfl (strLt_ne (strLt_trans h1 h2))

/-- Insertion into an ordered uniqueness set, modelling std::set of String:
place the new string at its sorted position unless already present. -/
def setInsert (a : Str) : List Str → List Str
  | [] => [a]
  | b :: t =>
    if strLt a b then a :: b :: t
    else if strLt b a then b :: setInsert a t
    else b :: t

theorem setInsert_mem {a x : Str} : ∀ {s : List Str},
    (x ∈ setInsert a s ↔ x = a ∨ x ∈ s) := by
  intro s
  induction s with
  | nil => simp [setInsert]
  | cons b t ih =>
    rw [setInsert]
    split
    · simp
    · split
      · rename_i h1 h2
        simp only [List.mem_cons, ih]
        tauto
      · rename_i h1 h2
        have hab : a = b := strLt_conn (by simpa using h1) (by simpa using h2)
        subst hab
        simp only [List.mem_cons]
        tauto

theorem setInsert_sorted {a : Str} {s : List Str}
    (h : List.Pairwise (fun x y => strLt x y = true) s) :
    List.Pairwise (fun x y => strLt x y = true) (setInsert a s) := by
  induction s with
  | nil => simp [setInsert]
  | cons b t ih =>
    rw [List.pairwise_cons] at h
    rw [setInsert]
    split
    · rename_i h1
      rw [List.pairwise_cons]
      constructor
      · intro y hy
        rcases List.mem_cons.mp hy with rfl | hy2
        · exact h1
        · exact strLt_trans h1 (h.1 y hy2)
      · rw [List.pairwise_cons]
        exact ⟨h.1, h.2⟩
    · split
      · rename_i h1 h2
        rw [List.pairwise_cons]
        constructor
        · intro y hy
          rcases setInsert_mem.mp hy with rfl | hy2
          · exact h2
          · exact h.1 y hy2
        · exact ih h.2
      · rw [List.pairwise_cons]
        exact ⟨h.1, h.2⟩

/-- The uniqueness set built by inserting the encountered candidates in
encounter order. -/
def uniqueList (l : List Str) : List Str := l.foldl (fun s a => setInsert a s) []

theorem uniqueList_core : ∀ (l : List Str) (s : List Str),
    List.Pairwise (fun x y => strLt x y = true) s →
    (List.Pairwise (fun x y => strLt x y = true) (l.foldl (fun s a => setInsert a s) s) ∧
      ∀ x, (x ∈ l.foldl (fun s a => setInsert a s) s ↔ x ∈ l ∨ x ∈ s)) := by
  intro l
  induction l with
  | nil =>
    intro s h
    exact ⟨h, by simp⟩
  | cons a t ih =>
    intro s h
    rw [List.foldl_cons]
    have hih := ih (setInsert a s) (setInsert_sorted h)
    refine ⟨hih.1, ?_⟩
    intro x
    rw [hih.2 x, setInsert_mem]
    simp only [List.mem_cons]
    tauto

theorem uniqueList_sorted (l : List Str) :
    List.Pairwise (fun x y => strLt x y = true) (uniqueList l) :=
  (uniqueList_core l [] (by simp)).1

theorem uniqueList_mem (l : List Str) : ∀ x, x ∈ uniqueList l ↔ x ∈ l := by
  intro x
  have := (uniqueList_core l [] (by simp)).2 x
  simpa using this

/-- Plain sorted insertion (skipping nothing), used to state the amended
truncation order independently of the uniqueness-set construction. -/
def sInsert (a : Str) : List Str → List Str
  | [] => [a]
  | b :: t => if strLt a b then a :: b :: t else b :: sInsert a t

/-- Insertion sort by strLt. -/
def sortStr : List Str → List Str
  | [] => []
  | a :: t => sInsert a (sortStr t)

theorem sInsert_mem {a x : Str} : ∀ {s : List Str},
    (x ∈ sInsert a s ↔ x = a ∨ x ∈ s) := by
  intro s
  induction s with
  | nil => simp [sInsert]
  | cons b t ih =>
    rw [sInsert]
    split
    · simp
    · simp only [List.mem_cons, ih]
      tauto

theorem sortStr_mem (l : List Str) : ∀ x, x ∈ sortStr l ↔ x ∈ l := by
  induction l with
  | nil => simp [sortStr]
  | cons a t ih =>
    intro x
    rw [sortStr, sInsert_mem]
    simp only [List.mem_cons, ih]

theorem sInsert_sorted {a : Str} {s : List Str} (hnotin : a ∉ s)
    (h : List.Pairwise (fun x y => strLt x y = true) s) :
    List.Pairwise (fun x y => strLt x y = true) (sInsert a s) := by
  induction s with
  | nil => simp [sInsert]
  | cons b t ih =>
    rw [List.pairwise_cons] at h
    rw [sInsert]
    split
    · rename_i h1
      rw [List.pairwise_cons]
      refine ⟨?_, List.pairwise_cons.mpr ⟨h.1, h.2⟩⟩
      intro y hy
      rcases List.mem_cons.mp hy with rfl | hy2
      · exact h1
      · exact strLt_trans h1 (h.1 y hy2)
    · rename_i h1
      have hba : strLt b a = true := by
        cases hc : strLt b a with
        | true => rfl
        | false =>
          have : a = b := strLt_conn (by simpa using h1) hc
          exact absurd (by rw [this]; exact List.mem_cons_self b t) hnotin
      rw [List.pairwise_cons]
      constructor
      · intro y hy
        rcases sInsert_mem.mp hy with rfl | hy2
        · exact hba
        · exact h.1 y hy2
      · exact ih (fun hc => hnotin (List.mem_cons_of_mem b hc)) h.2

theorem sortStr_sorted {l : List Str} (h : l.Nodup) :
    List.Pairwise (fun x y => strLt x y = true) (sortStr l) := by
  induction l with
  | nil => simp [sortStr]
  | cons a t ih =>
    rw [List.nodup_cons] at h
    rw [sortStr]
    exact sInsert_sorted (fun hc => h.1 ((sortStr_mem t a).mp hc)) (ih h.2)

theorem sorted_unique_eq : ∀ {xs ys : List Str},
    List.Pairwise (fun x y => strLt x y = true) xs →
    List.Pairwise (fun x y => strLt x y = true) ys →
    (∀ x, x ∈ xs ↔ x ∈ ys) → xs = ys := by
  intro xs
  induction xs with
  | nil =>
    intro ys _ _ hm
    cases ys with
    | nil => rfl
    | cons y yt => exact absurd ((hm y).mpr (List.mem_cons_self y yt)) (by simp)
  | cons x xt ih =>
    intro ys hx hy hm
    cases ys with
    | nil => exact absurd ((hm x).mp (List.mem_cons_self x xt)) (by simp)
    | cons y yt =>
      rw [List.pairwise_cons] at hx hy
      have hxy : x = y := by
        rcases List.mem_cons.mp ((hm x).mp (List.mem_cons_self x xt)) with he | hxin
        · exact he
        · rcases List.mem_cons.mp ((hm y).mpr (List.mem_cons_self y yt)) with he | hyin
          · exact he.symm
          · exact absurd rfl (strLt_ne (strLt_trans (hy.1 x hxin) (hx.1 y hyin)))
      subst hxy
      have htails : ∀ z, z ∈ xt ↔ z ∈ yt := by
        intro z
        constructor
        · intro hz
          rcases List.mem_cons.mp ((hm z).mp (List.mem_cons_of_mem x hz)) with he | h2
          · exact absurd rfl (strLt_ne (he ▸ hx.1 z hz))
          · exact h2
        · intro hz
          rcases List.mem_cons.mp ((hm z).mpr (List.mem_cons_of_mem x hz)) with he | h2
          · exact absurd rfl (strLt_ne (he ▸ hy.1 z hz))
          · exact h2
      rw [ih hx.2 hy.2 htails]

theorem uniqueList_eq_sortStr (l : List Str) :
    uniqueList l = sortStr l.dedup := by
  apply sorted_unique_eq (uniqueList_sorted l) (sortStr_sorted l.nodup_dedup)
  intro x
  rw [uniqueList_mem, sortStr_mem, List.mem_dedup]


/-! ### The tone normalizer, at byte granularity -/

/-! Byte-level model of Arduino String for the tone normalizer. -/

/-- Model of tolower applied bytewise by Arduino String.toLowerCase. -/
def lowerByte (b : Nat) : Nat := if 65 ≤ b ∧ b ≤ 90 then b + 32 else b

/-- Bytewise lower-casing of a byte string. -/
def toLowerBytes (s : List Nat) : List Nat := s.map lowerByte

/-- Locate the first occurrence of pattern p in s, returning the bytes before
the occurrence and the bytes after it. -/
def splitOcc (p : List Nat) : List Nat → Option (List Nat × List Nat)
  | [] => none
  | c :: t =>
    if p.isPrefixOf (c :: t) then some ([], (c :: t).drop p.length)
    else
      match splitOcc p t with
      | some (pre, suf) => some (c :: pre, suf)
      | none => none

theorem splitOcc_some {p s pre suf : List Nat} (hp : p ≠ [])
    (h : splitOcc p s = some (pre, suf)) :
    s = pre ++ p ++ suf ∧ ¬ p <:+: pre := by
  induction s generalizing pre suf with
  | nil => simp [splitOcc] at h
  | cons c t ih =>
    rw [splitOcc] at h
    split at h
    · rename_i hpref
      have hpx : p <+: c :: t := List.isPrefixOf_iff_prefix.mp hpref
      obtain ⟨r, hr⟩ := hpx
      injection h with h1
      injection h1 with hpre hsuf
      subst hpre hsuf
      constructor
      · simp [← hr, List.drop_left]
      · simp [List.infix_nil] at *
        intro hcon
        exact hp hcon
    · rename_i hnpref
      cases hsp : splitOcc p t with
      | none => rw [hsp] at h; exact absurd h (by simp)
      | some pr =>
        obtain ⟨pre2, suf2⟩ := pr
        rw [hsp] at h
        simp at h
        obtain ⟨hpre, hsuf⟩ := h
        obtain ⟨ht, hni⟩ := ih hsp
        subst hsuf
        constructor
        · rw [← hpre, ht]; simp
        · rw [← hpre]
          intro hcon
          rcases List.infix_cons_iff.mp hcon with hx | hx
          · have : p <+: c :: t := by
              calc p <+: c :: pre2 := hx
              _ <+: c :: t := by rw [ht]; exact ⟨p ++ suf2, by simp⟩
            exact hnpref (List.isPrefixOf_iff_prefix.mpr this)
          · exact hni hx

theorem splitOcc_none {p s : List Nat} (hp : p ≠ []) (h : splitOcc p s = none) :
    ¬ p <:+: s := by
  induction s with
  | nil => simp [List.infix_nil]; exact hp
  | cons c t ih =>
    rw [splitOcc] at h
    split at h
    · exact absurd h (by simp)
    · rename_i hnpref
      cases hsp : splitOcc p t with
      | some pr => rw [hsp] at h; obtain ⟨a, b⟩ := pr; simp at h
      | none =>
        intro hcon
        rcases List.infix_cons_iff.mp hcon with hx | hx
        · exact hnpref (List.isPrefixOf_iff_prefix.mpr hx)
        · exact ih hsp hx

/-- Model of Arduino String.replace(find, repl): repeatedly replace the first
occurrence, resuming the scan after the replacement text. Empty subject or
empty pattern is a no-op, as in the Arduino core. -/
def replaceAll (p q : List Nat) (s : List Nat) : List Nat :=
  if hp : p = [] then s
  else
    match h : splitOcc p s with
    | none => s
    | some (pre, suf) => pre ++ q ++ replaceAll p q suf
termination_by s.length
decreasing_by
  have hs := splitOcc_some hp h
  rw [hs.1]
  simp
  cases p with
  | nil => exact absurd rfl hp
  | cons a b => simp; omega

theorem replaceAll_of_no_occ {p q s : List Nat} (h : ¬ p <:+: s) :
    replaceAll p q s = s := by
  rw [replaceAll]
  split
  · rfl
  · rename_i hp
    split
    · rfl
    · rename_i pre suf hsp
      obtain ⟨hs, _⟩ := splitOcc_some hp hsp
      exact absurd ⟨pre, suf, hs.symm⟩ h

theorem prefix_append_cases {p u v : List Nat} (h : p <+: u ++ v) :
    p <+: u ∨ ∃ r, p = u ++ r ∧ r <+: v := by
  induction u generalizing p with
  | nil => right; exact ⟨p, by simp, by simpa using h⟩
  | cons x u2 ih =>
    cases p with
    | nil => left; exact List.nil_prefix
    | cons a p2 =>
      rw [List.cons_append] at h
      obtain ⟨ha, h2⟩ := List.cons_prefix_cons.mp h
      subst ha
      rcases ih h2 with hy | ⟨r, hr, hrv⟩
      · left; exact List.cons_prefix_cons.mpr ⟨rfl, hy⟩
      · right; exact ⟨r, by rw [hr]; simp, hrv⟩

/-- Decompose an occurrence in an append into the three possible positions. -/
theorem infix_append_cases {p u v : List Nat} (h : p <:+: u ++ v) :
    p <:+: u ∨ p <:+: v ∨
      ∃ p1 p2, p = p1 ++ p2 ∧ p1 ≠ [] ∧ p2 ≠ [] ∧ p1 <:+ u ∧ p2 <+: v := by
  induction u with
  | nil => right; left; simpa using h
  | cons x u2 ih =>
    rw [List.cons_append] at h
    rcases List.infix_cons_iff.mp h with hx | hx
    · -- p is a prefix of x :: (u2 ++ v)
      cases p with
      | nil => left; exact List.nil_infix
      | cons a p2 =>
        obtain ⟨r, hr⟩ := hx
        injection hr with h1 h2
        subst h1
        -- p2 ++ r = u2 ++ v
        have hpref : p2 <+: u2 ++ v := ⟨r, h2⟩
        rcases (prefix_append_cases hpref) with hy | ⟨rest, hrest, hrpref⟩
        · left
          exact List.IsPrefix.isInfix (by exact List.cons_prefix_cons.mpr ⟨rfl, hy⟩)
        · by_cases hre : rest = []
          · subst hre
            left
            apply List.IsPrefix.isInfix
            apply List.cons_prefix_cons.mpr
            refine ⟨rfl, ?_⟩
            rw [hrest]; simp
          · right; right
            refine ⟨a :: u2, rest, ?_, by simp, hre, List.suffix_refl _, hrpref⟩
            rw [hrest]; simp
    · rcases ih hx with hy | hy | ⟨p1, p2, hp12, hp1, hp2, hsu, hpv⟩
      · left; exact List.infix_cons hy
      · right; left; exact hy
      · right; right
        exact ⟨p1, p2, hp12, hp1, hp2, hsu.trans (List.suffix_cons x u2), hpv⟩

/-- An all-high-byte pattern cannot occur across or inside an all-low-byte
replacement text. -/
theorem not_infix_sandwich {p q x y : List Nat} (hp : p ≠ [])
    (hhigh : ∀ b ∈ p, 128 ≤ b) (hq : q ≠ []) (hlow : ∀ b ∈ q, b < 128)
    (hx : ¬ p <:+: x) (hy : ¬ p <:+: y) : ¬ p <:+: (x ++ (q ++ y)) := by
  intro h
  rcases infix_append_cases h with h1 | h1 | ⟨p1, p2, hp12, hp1, hp2, hsu, hpv⟩
  · exact hx h1
  · rcases infix_append_cases h1 with h2 | h2 | ⟨p1, p2, hp12, hp1, hp2, hsu, hpv⟩
    · -- p occurs inside q: some byte is both high and low
      cases p with
      | nil => exact hp rfl
      | cons a t =>
        have ha : a ∈ q := h2.subset (by simp)
        exact absurd (hhigh a (by simp)) (by have := hlow a ha; omega)
    · exact hy h2
    · cases p1 with
      | nil => exact hp1 rfl
      | cons a t =>
        have haq : a ∈ q := hsu.subset (by simp)
        have hap : a ∈ p := by rw [hp12]; simp
        exact absurd (hhigh a hap) (by have := hlow a haq; omega)
  · -- p2 is a nonempty prefix of q ++ y, so its head is the head of q
    cases p2 with
    | nil => exact hp2 rfl
    | cons a t =>
      cases q with
      | nil => exact hq rfl
      | cons c qt =>
        obtain ⟨ha, _⟩ := List.cons_prefix_cons.mp hpv
        subst ha
        have hap : a ∈ p := by rw [hp12]; simp
        exact absurd (hhigh a hap) (by have := hlow a (by simp); omega)

/-- replaceAll never creates a new occurrence of an all-high pattern when the
replacement text is nonempty and all-low. -/
theorem not_infix_replaceAll {pp p q s : List Nat} (hpp : pp ≠ [])
    (hhigh : ∀ b ∈ pp, 128 ≤ b) (hq : q ≠ []) (hlow : ∀ b ∈ q, b < 128)
    (hs : ¬ pp <:+: s) : ¬ pp <:+: replaceAll p q s := by
  rw [replaceAll]
  split
  · exact hs
  · rename_i hp
    split
    · exact hs
    · rename_i pre suf hsp
      obtain ⟨hdec, hnpre⟩ := splitOcc_some hp hsp
      subst hdec
      have hxpre : ¬ pp <:+: pre := fun hc =>
        hs (hc.trans ⟨[], p ++ suf, by simp⟩)
      have hxsuf : ¬ pp <:+: suf := fun hc =>
        hs (hc.trans ⟨pre ++ p, [], by simp⟩)
      have hrec : ¬ pp <:+: replaceAll p q suf :=
        not_infix_replaceAll hpp hhigh hq hlow hxsuf
      rw [List.append_assoc]
      exact not_infix_sandwich hpp hhigh hq hlow hxpre hrec
termination_by s.length
decreasing_by
  rw [hdec]
  simp
  cases p with
  | nil => simp_all
  | cons a b => simp; omega

/-- After replaceAll p q s there is no occurrence of p itself, when p is
all-high and q is nonempty all-low. -/
theorem not_infix_replaceAll_self {p q s : List Nat} (hp0 : p ≠ [])
    (hhigh : ∀ b ∈ p, 128 ≤ b) (hq : q ≠ []) (hlow : ∀ b ∈ q, b < 128) :
    ¬ p <:+: replaceAll p q s := by
  rw [replaceAll]
  split
  · exact absurd (by assumption) hp0
  · rename_i hp
    split
    · rename_i hsp
      exact splitOcc_none hp hsp
    · rename_i pre suf hsp
      obtain ⟨hdec, hnpre⟩ := splitOcc_some hp hsp
      have hrec : ¬ p <:+: replaceAll p q suf :=
        not_infix_replaceAll_self hp0 hhigh hq hlow
      rw [List.append_assoc]
      exact not_infix_sandwich hp0 hhigh hq hlow hnpre hrec
termination_by s.length
decreasing_by
  rw [hdec]
  simp
  cases p with
  | nil => simp_all
  | cons a b => simp; omega

/-- The 32 replacements performed by removeTones, in source order, as UTF-8
byte sequences exactly as they appear in the C++ string literals. -/
def tonePairs : List (List Nat × List Nat) :=
  [([196, 129], [97]), ([195, 161], [97]), ([199, 142], [97]), ([195, 160], [97]),
   ([196, 147], [101]), ([195, 169], [101]), ([196, 155], [101]), ([195, 168], [101]),
   ([196, 171], [105]), ([195, 173], [105]), ([199, 144], [105]), ([195, 172], [105]),
   ([197, 141], [111]), ([195, 179], [111]), ([199, 146], [111]), ([195, 178], [111]),
   ([197, 171], [117]), ([195, 186], [117]), ([199, 148], [117]), ([195, 185], [117]),
   ([195, 188], [118]), ([199, 150], [118]), ([199, 152], [118]), ([199, 154], [118]),
   ([199, 156], [118]), ([197, 132], [110]), ([197, 136], [110]), ([201, 161], [103]),
   ([197, 139], [110, 103]), ([201, 145], [97]), ([201, 168], [105]), ([201, 175], [117])]

/-- Apply a list of replacements in order. -/
def applyPairs (pairs : List (List Nat × List Nat)) (s : List Nat) : List Nat :=
  pairs.foldl (fun acc pq => replaceAll pq.1 pq.2 acc) s

/-- removeTones, bytewise: the 32 tone replacements followed by toLowerCase. -/
def removeTones (s : List Nat) : List Nat := toLowerBytes (applyPairs tonePairs s)

/-- A well-formed replacement pair: nonempty all-high pattern, nonempty
all-low replacement. -/
def goodPair (pq : List Nat × List Nat) : Prop :=
  pq.1 ≠ [] ∧ (∀ b ∈ pq.1, 128 ≤ b) ∧ pq.2 ≠ [] ∧ (∀ b ∈ pq.2, b < 128)

instance : DecidablePred goodPair := by
  intro pq
  unfold goodPair
  infer_instance

theorem tonePairs_good : ∀ pq ∈ tonePairs, goodPair pq := by decide

theorem applyPairs_preserve {pp : List Nat} {pairs : List (List Nat × List Nat)}
    {s : List Nat} (hpp : pp ≠ []) (hhigh : ∀ b ∈ pp, 128 ≤ b)
    (hgood : ∀ pq ∈ pairs, goodPair pq) (hs : ¬ pp <:+: s) :
    ¬ pp <:+: applyPairs pairs s := by
  induction pairs generalizing s with
  | nil => exact hs
  | cons pq rest ih =>
    have hg := hgood pq (by simp)
    exact ih (fun r hr => hgood r (by simp [hr]))
      (not_infix_replaceAll hpp hhigh hg.2.2.1 hg.2.2.2 hs)

theorem applyPairs_kills {pairs : List (List Nat × List Nat)} {s : List Nat}
    (hgood : ∀ pq ∈ pairs, goodPair pq) :
    ∀ pq ∈ pairs, ¬ pq.1 <:+: applyPairs pairs s := by
  induction pairs generalizing s with
  | nil => intro pq h; simp at h
  | cons hd rest ih =>
    intro pq hmem
    have hghd := hgood hd (by simp)
    rcases List.mem_cons.mp hmem with he | hmem2
    · subst he
      show ¬ pq.1 <:+: applyPairs rest (replaceAll pq.1 pq.2 s)
      exact applyPairs_preserve hghd.1 hghd.2.1 (fun r hr => hgood r (by simp [hr]))
        (not_infix_replaceAll_self hghd.1 hghd.2.1 hghd.2.2.1 hghd.2.2.2)
    · exact ih (fun r hr => hgood r (by simp [hr])) pq hmem2

theorem applyPairs_of_no_occ {pairs : List (List Nat × List Nat)} {s : List Nat}
    (h : ∀ pq ∈ pairs, ¬ pq.1 <:+: s) : applyPairs pairs s = s := by
  induction pairs with
  | nil => rfl
  | cons hd rest ih =>
    show applyPairs rest (replaceAll hd.1 hd.2 s) = s
    rw [replaceAll_of_no_occ (h hd (by simp))]
    exact ih (fun r hr => h r (by simp [hr]))

theorem lowerByte_fix_high {b : Nat} (h : 128 ≤ lowerByte b) : lowerByte b = b := by
  unfold lowerByte at h ⊢
  by_cases hb : 65 ≤ b ∧ b ≤ 90
  · rw [if_pos hb] at h; omega
  · rw [if_neg hb]

theorem lowerByte_idem (b : Nat) : lowerByte (lowerByte b) = lowerByte b := by
  unfold lowerByte
  split
  · rename_i h1
    split
    · rename_i h2; omega
    · rfl
  · rfl

theorem map_lower_high_eq {l pp : List Nat} (h : List.map lowerByte l = pp)
    (hh : ∀ b ∈ pp, 128 ≤ b) : l = pp := by
  induction l generalizing pp with
  | nil => exact h
  | cons c t ih =>
    cases pp with
    | nil => simp at h
    | cons p0 pt =>
      simp at h
      obtain ⟨h0, ht⟩ := h
      have hc : lowerByte c = c := lowerByte_fix_high (by rw [h0]; exact hh p0 (by simp))
      simp [← h0, hc, ih ht (fun b hb => hh b (by simp [hb]))]

theorem not_infix_toLowerBytes {pp s : List Nat} (hpp : pp ≠ [])
    (hhigh : ∀ b ∈ pp, 128 ≤ b) (hs : ¬ pp <:+: s) :
    ¬ pp <:+: toLowerBytes s := by
  intro h
  obtain ⟨a, b, hab⟩ := h
  apply hs
  unfold toLowerBytes at hab
  have hmap : a ++ (pp ++ b) = List.map lowerByte s := by
    rw [← List.append_assoc]; exact hab
  obtain ⟨l1, l2, hl12, hml1, hml2⟩ := List.append_eq_map_iff.mp hmap
  obtain ⟨l3, l4, hl34, hml3, hml4⟩ := List.append_eq_map_iff.mp hml2.symm
  have hl3pp : l3 = pp := map_lower_high_eq hml3 hhigh
  refine ⟨l1, l4, ?_⟩
  rw [hl12, hl34, hl3pp]
  simp

/-- The tone normalizer is idempotent on every byte string. -/
theorem removeTones_idem (s : List Nat) :
    removeTones (removeTones s) = removeTones s := by
  unfold removeTones
  have hno : ∀ pq ∈ tonePairs, ¬ pq.1 <:+: toLowerBytes (applyPairs tonePairs s) := by
    intro pq hmem
    have hg := tonePairs_good pq hmem
    exact not_infix_toLowerBytes hg.1 hg.2.1
      (applyPairs_kills tonePairs_good pq hmem)
  rw [applyPairs_of_no_occ hno]
  unfold toLowerBytes
  rw [List.map_map]
  congr 1
  funext b
  exact lowerByte_idem b

/-! ### Dictionary lookup and the segmentation engine -/

/-- Model of String.substring(j, i): the characters at positions j..i-1. -/
def substrCh (s : Str) (j i : Nat) : Str := (s.drop j).take (i - j)

/-- Dynamic-programming table of segmentPinyin: dp 0 = [[]] and dp i collects,
for every j < i with s[j:i] a dictionary key, every segmentation of s[0:j]
extended by that key, in the same loop order as the C++ code. -/
def segDP (dict : List (Str × List Str)) (s : Str) : Nat → List (List Str)
  | 0 => [[]]
  | i + 1 =>
    (List.range (i + 1)).attach.flatMap
      (fun jh =>
        if mapFind (substrCh s jh.1 (i + 1)) dict ≠ none then
          (segDP dict s jh.1).map (fun pre => pre ++ [substrCh s jh.1 (i + 1)])
        else [])
decreasing_by exact List.mem_range.mp jh.2

/-- Model of segmentPinyin: empty buffer returns no segmentations; otherwise
the full-length entry of the dp table. -/
def segmentPinyin (dict : List (Str × List Str)) (s : Str) : List (List Str) :=
  if s.length = 0 then [] else segDP dict s s.length

theorem segDP_mem (dict : List (Str × List Str)) (s : Str) :
    ∀ i, i ≤ s.length → ∀ parts,
      (parts ∈ segDP dict s i ↔
        (List.flatten parts = s.take i ∧ ∀ p ∈ parts, p ≠ [] ∧ mapFind p dict ≠ none)) := by
  intro i
  induction i using Nat.strong_induction_on with
  | _ i ih =>
    intro hile parts
    match i with
    | 0 =>
      simp [segDP]
      constructor
      · rintro rfl; simp
      · rintro ⟨h1, h2⟩
        cases parts with
        | nil => rfl
        | cons a t => exact absurd (h1 a (by simp)) (h2 a (by simp)).1
    | i + 1 =>
      constructor
      · intro hmem
        rw [segDP] at hmem
        simp only [List.mem_flatMap, List.mem_attach, true_and] at hmem
        obtain ⟨⟨j, hj⟩, hin⟩ := hmem
        have hjlt : j < i + 1 := List.mem_range.mp hj
        split at hin
        · rename_i hkey
          simp only [List.mem_map] at hin
          obtain ⟨pre, hpre, hparts⟩ := hin
          have hIH := ((ih j hjlt (by omega)) pre).mp hpre
          have hsum : j + (i + 1 - j) = i + 1 := by omega
          subst hparts
          refine ⟨?_, ?_⟩
          · calc List.flatten (pre ++ [substrCh s j (i + 1)])
                = s.take j ++ (s.drop j).take (i + 1 - j) := by
                  rw [List.flatten_append]; simp [hIH.1, substrCh]
              _ = s.take (j + (i + 1 - j)) := (List.take_add s j (i + 1 - j)).symm
              _ = s.take (i + 1) := by rw [hsum]
          · intro p hp
            rcases List.mem_append.mp hp with h1 | h1
            · exact hIH.2 p h1
            · simp only [List.mem_singleton] at h1
              subst h1
              refine ⟨?_, hkey⟩
              have hlseg : (substrCh s j (i + 1)).length = i + 1 - j := by
                rw [substrCh]
                simp
                omega
              intro hnil
              rw [hnil] at hlseg
              simp at hlseg
              omega
        · simp at hin
      · rintro ⟨hflat, hgood⟩
        rcases List.eq_nil_or_concat parts with rfl | ⟨init, last, hconc⟩
        · exfalso
          have hlf : (List.flatten ([] : List Str)).length = (s.take (i + 1)).length := by
            rw [hflat]
          simp at hlf
          omega
        · subst hconc
          rw [List.concat_eq_append] at hflat hgood ⊢
          have hlast := hgood last (by simp)
          have hlen1 : (List.flatten (init ++ [last])).length = i + 1 := by
            rw [hflat]
            simp
            omega
          have hL : 1 ≤ last.length := by
            cases hl : last with
            | nil => exact absurd hl hlast.1
            | cons a t => simp
          have hflat2 : List.flatten init ++ last = s.take (i + 1) := by
            rw [← hflat]
            simp
          set j := (List.flatten init).length with hjdef
          have hlenflat : j + last.length = i + 1 := by
            have h4 := congrArg List.length hflat2
            rw [List.length_append, List.length_take] at h4
            omega
          have hjlt : j < i + 1 := by omega
          have hfi : List.flatten init = s.take j := by
            have h3 := congrArg (List.take j) hflat2
            rw [List.take_left' hjdef.symm] at h3
            rw [h3, List.take_take, Nat.min_eq_left (by omega : j ≤ i + 1)]
          have hlastval : last = substrCh s j (i + 1) := by
            have h3 := congrArg (List.drop j) hflat2
            rw [List.drop_left' hjdef.symm] at h3
            unfold substrCh
            rw [h3, List.drop_take]
          rw [segDP]
          simp only [List.mem_flatMap, List.mem_attach, true_and]
          refine ⟨⟨j, List.mem_range.mpr hjlt⟩, ?_⟩
          rw [if_pos (by rw [← hlastval]; exact hlast.2)]
          simp only [List.mem_map]
          exact ⟨init, ((ih j hjlt (by omega)) init).mpr
            ⟨hfi, fun p hp => hgood p (by simp [hp])⟩, by rw [← hlastval]⟩

/-- Amended C5: on every nonempty buffer, segmentPinyin returns exactly the
decompositions of the whole buffer into nonempty dictionary keys, and in
particular the segmentation by two adjacent dictionary keys is found. -/
theorem segmentPinyin_complete :
    (∀ (dict : List (Str × List Str)) (s : Str) (parts : List Str), s ≠ [] →
      (parts ∈ segmentPinyin dict s ↔
        (List.flatten parts = s ∧ ∀ p ∈ parts, p ≠ [] ∧ mapFind p dict ≠ none)))
    ∧ (∀ dict : List (Str × List Str), mapFind (lit "ni") dict ≠ none →
        mapFind (lit "hao") dict ≠ none →
        [lit "ni", lit "hao"] ∈ segmentPinyin dict (lit "nihao")) := by
  have hmain : ∀ (dict : List (Str × List Str)) (s : Str) (parts : List Str), s ≠ [] →
      (parts ∈ segmentPinyin dict s ↔
        (List.flatten parts = s ∧ ∀ p ∈ parts, p ≠ [] ∧ mapFind p dict ≠ none)) := by
    intro dict s parts hs
    unfold segmentPinyin
    rw [if_neg (by simpa using hs)]
    have := segDP_mem dict s s.length (le_refl _) parts
    rwa [List.take_length] at this
  refine ⟨hmain, ?_⟩
  intro dict hni hhao
  rw [hmain dict (lit "nihao") [lit "ni", lit "hao"] (by decide)]
  refine ⟨by decide, ?_⟩
  intro p hp
  rcases List.mem_cons.mp hp with rfl | hp2
  · exact ⟨by decide, hni⟩
  · simp only [List.mem_singleton] at hp2
    subst hp2
    exact ⟨by decide, hhao⟩

/-- Counterexample to C5 as stated: on the empty buffer the code returns the
empty set of segmentations, while the claimed recurrence value dp 0 is the
singleton containing the empty segmentation. -/
theorem segmentPinyin_empty_cex :
    segmentPinyin [] ([] : Str) = [] ∧ segDP [] ([] : Str) 0 = [[]] ∧
    segmentPinyin [] ([] : Str) ≠ segDP [] ([] : Str) (List.length ([] : Str)) := by
  have h1 : segmentPinyin [] ([] : Str) = [] := by simp [segmentPinyin]
  have h2 : segDP [] ([] : Str) 0 = [[]] := by simp [segDP]
  refine ⟨h1, h2, ?_⟩
  rw [h1, List.length_nil, h2]
  simp

theorem segmentPinyin_complete_witness :
    (((lit "ni") ≠ ([] : Str)) ∧
      ([lit "ni"] ∈ segmentPinyin [(lit "ni", [lit "x"])] (lit "ni") ↔
        (List.flatten [lit "ni"] = lit "ni" ∧
          ∀ p ∈ [lit "ni"], p ≠ [] ∧ mapFind p [(lit "ni", [lit "x"])] ≠ none)))
    ∧ [lit "ni", lit "hao"] ∈
        segmentPinyin [(lit "ni", [lit "x"]), (lit "hao", [lit "y"])] (lit "nihao") :=
  ⟨⟨by decide, segmentPinyin_complete.1 [(lit "ni", [lit "x"])] (lit "ni") [lit "ni"] (by decide)⟩,
   segmentPinyin_complete.2 [(lit "ni", [lit "x"]), (lit "hao", [lit "y"])] (by decide) (by decide)⟩

/-! ### Candidate generation for multi-syllable segmentations -/

/-- Model of the recursive generateCombinations, instrumented with the number
of invocations of the function (the product-expansion work). The index
parameter of the C++ code is modelled by consuming the charOptions list; the
loop with its early break at 10 collected results is modelled by a fold with
a done flag. Returns (results, invocation count). -/
def generateCombinations (charOptions : List (List Str)) (current : Str)
    (results : List Str) : List Str × Nat :=
  match charOptions with
  | [] => (if results.length < 10 then results ++ [current] else results, 1)
  | o :: rest =>
    let out := o.foldl
      (fun (acc : List Str × Nat × Bool) ch =>
        if acc.2.2 then acc
        else
          let r := generateCombinations rest (current ++ ch) acc.1
          (r.1, acc.2.1 + r.2, decide (10 ≤ r.1.length)))
      (results, 0, false)
    (out.1, out.2.1 + 1)

/-- Character options of one segmentation; none when some syllable is not a
dictionary key (the allSegmentsValid check). -/
def collectOptions (dict : List (Str × List Str)) : List Str → Option (List (List Str))
  | [] => some []
  | seg :: t =>
    match mapFind seg dict with
    | some chars => (collectOptions dict t).map (fun os => chars :: os)
    | none => none

/-- Model of generateMultiCharCandidates, instrumented with the total number
of generateCombinations invocations. For each segmentation whose syllables
all resolve, the combinations are generated into a fresh vector and then
copied into the result only while fewer than 20 results are present. -/
def generateMultiCharCandidates (dict : List (Str × List Str))
    (segments : List (List Str)) : List Str × Nat :=
  segments.foldl
    (fun acc segmentList =>
      match collectOptions dict segmentList with
      | none => acc
      | some charOptions =>
        let r := generateCombinations charOptions [] []
        (r.1.foldl (fun res combo => if res.length < 20 then res ++ [combo] else res) acc.1,
         acc.2 + r.2))
    ([], 0)

/-- Combination strings produced for one segmentation. -/
def segCombos (dict : List (Str × List Str)) (segmentList : List Str) : List Str :=
  match collectOptions dict segmentList with
  | none => []
  | some charOptions => (generateCombinations charOptions [] []).1

/-- Expansion work spent on one segmentation. -/
def segCost (dict : List (Str × List Str)) (segmentList : List Str) : Nat :=
  match collectOptions dict segmentList with
  | none => 0
  | some charOptions => (generateCombinations charOptions [] []).2

theorem generateCombinations_length_le (charOptions : List (List Str))
    (current : Str) (results : List Str) :
    (generateCombinations charOptions current results).1.length ≤
      max results.length 10 := by
  induction charOptions generalizing current results with
  | nil =>
    rw [generateCombinations]
    split
    · simp
      omega
    · simp
  | cons o rest ih =>
    rw [generateCombinations]
    dsimp only
    have hfold : ∀ (l : List Str) (acc : List Str × Nat × Bool),
        acc.1.length ≤ max results.length 10 →
        (l.foldl (fun (acc : List Str × Nat × Bool) ch =>
          if acc.2.2 then acc
          else
            let r := generateCombinations rest (current ++ ch) acc.1
            (r.1, acc.2.1 + r.2, decide (10 ≤ r.1.length))) acc).1.length ≤
          max results.length 10 := by
      intro l
      induction l with
      | nil => intro acc h; exact h
      | cons ch more ihl =>
        intro acc h
        rw [List.foldl_cons]
        apply ihl
        split
        · exact h
        · dsimp only
          calc (generateCombinations rest (current ++ ch) acc.1).1.length
              ≤ max acc.1.length 10 := ih _ _
            _ ≤ max (max results.length 10) 10 := by omega
            _ = max results.length 10 := by omega
    exact hfold o (results, 0, false) (by simp)

theorem generateCombinations_full_stop (charOptions : List (List Str))
    (current : Str) (results : List Str) (h : 10 ≤ results.length) :
    (generateCombinations charOptions current results).1 = results ∧
    (generateCombinations charOptions current results).2 ≤ charOptions.length + 1 := by
  induction charOptions generalizing current with
  | nil =>
    rw [generateCombinations]
    rw [if_neg (by omega)]
    exact ⟨rfl, by simp⟩
  | cons o rest ih =>
    rw [generateCombinations]
    dsimp only
    have hfold : ∀ (l : List Str) (n : Nat),
        (l.foldl (fun (acc : List Str × Nat × Bool) ch =>
          if acc.2.2 then acc
          else
            let r := generateCombinations rest (current ++ ch) acc.1
            (r.1, acc.2.1 + r.2, decide (10 ≤ r.1.length))) (results, n, true)) =
          (results, n, true) := by
      intro l n
      induction l with
      | nil => rfl
      | cons ch more ihl =>
        rw [List.foldl_cons]
        exact ihl
    cases o with
    | nil => exact ⟨rfl, by simp⟩
    | cons ch more =>
      rw [List.foldl_cons]
      rw [if_neg (by simp)]
      dsimp only
      have hr := ih (current ++ ch)
      rw [hr.1]
      have hflag : decide (10 ≤ results.length) = true := by simpa using h
      rw [hflag, hfold more _]
      refine ⟨rfl, ?_⟩
      have := hr.2
      simp
      omega

theorem foldl_push20 : ∀ (l acc : List Str), acc.length ≤ 20 →
    l.foldl (fun res combo => if res.length < 20 then res ++ [combo] else res) acc =
      acc ++ l.take (20 - acc.length) := by
  intro l
  induction l with
  | nil => intro acc h; simp
  | cons c t ih =>
    intro acc h
    rw [List.foldl_cons]
    by_cases hlt : acc.length < 20
    · rw [if_pos hlt]
      rw [ih (acc ++ [c]) (by simp; omega)]
      have h20 : 20 - acc.length = (20 - (acc ++ [c]).length) + 1 := by simp; omega
      rw [h20, List.take_succ_cons]
      simp
    · rw [if_neg hlt]
      have h20 : acc.length = 20 := by omega
      have hz : 20 - acc.length = 0 := by omega
      rw [ih acc h, hz]
      simp

theorem take_append_take (k : Nat) (l r : List Str) :
    ((l.take k) ++ r).take k = (l ++ r).take k := by
  induction l generalizing k with
  | nil => simp
  | cons x xs ih =>
    cases k with
    | zero => simp
    | succ k2 =>
      rw [List.take_succ_cons, List.cons_append, List.cons_append,
        List.take_succ_cons, ih k2]
      simp

theorem generateMultiCharCandidates_take (dict : List (Str × List Str))
    (segments : List (List Str)) :
    (generateMultiCharCandidates dict segments).1 =
      ((segments.map (segCombos dict)).flatten).take 20 := by
  have hgen : ∀ (segs : List (List Str)) (acc : List Str × Nat), acc.1.length ≤ 20 →
      (segs.foldl (fun acc segmentList =>
        match collectOptions dict segmentList with
        | none => acc
        | some charOptions =>
          let r := generateCombinations charOptions [] []
          (r.1.foldl (fun res combo => if res.length < 20 then res ++ [combo] else res) acc.1,
           acc.2 + r.2)) acc).1 =
        (acc.1 ++ (segs.map (segCombos dict)).flatten).take 20 := by
    intro segs
    induction segs with
    | nil =>
      intro acc h
      simp
      exact h
    | cons seg rest ih =>
      intro acc h
      rw [List.foldl_cons]
      cases hco : collectOptions dict seg with
      | none =>
        rw [ih acc h]
        have hemp : segCombos dict seg = [] := by unfold segCombos; rw [hco]
        simp [hemp]
      | some charOptions =>
        dsimp only
        have hpush := foldl_push20 (generateCombinations charOptions [] []).1 acc.1 h
        have hcs : segCombos dict seg = (generateCombinations charOptions [] []).1 := by
          unfold segCombos
          rw [hco]
        rw [ih _ (by rw [hpush]; simp; omega)]
        dsimp only
        rw [hpush]
        rw [List.map_cons, List.flatten_cons, hcs]
        rw [List.append_assoc]
        have hx : ∀ X : List Str,
            List.take 20 (acc.1 ++ X) = acc.1 ++ List.take (20 - acc.1.length) X := by
          intro X
          rw [List.take_append_eq_append_take, List.take_of_length_le h]
        rw [hx, hx]
        congr 1
        exact take_append_take _ _ _
  have hmain := hgen segments ([], 0) (by simp)
  simpa [generateMultiCharCandidates] using hmain

theorem generateMultiCharCandidates_cost (dict : List (Str × List Str))
    (segments : List (List Str)) :
    (generateMultiCharCandidates dict segments).2 =
      (segments.map (segCost dict)).sum := by
  have hgen : ∀ (segs : List (List Str)) (acc : List Str × Nat),
      (segs.foldl (fun acc segmentList =>
        match collectOptions dict segmentList with
        | none => acc
        | some charOptions =>
          let r := generateCombinations charOptions [] []
          (r.1.foldl (fun res combo => if res.length < 20 then res ++ [combo] else res) acc.1,
           acc.2 + r.2)) acc).2 =
        acc.2 + (segs.map (segCost dict)).sum := by
    intro segs
    induction segs with
    | nil => intro acc; simp
    | cons seg rest ih =>
      intro acc
      rw [List.foldl_cons]
      cases hco : collectOptions dict seg with
      | none =>
        rw [ih acc]
        have hz : segCost dict seg = 0 := by unfold segCost; rw [hco]
        simp [hz]
      | some charOptions =>
        dsimp only
        rw [ih _]
        have hc : segCost dict seg = (generateCombinations charOptions [] []).2 := by
          unfold segCost
          rw [hco]
        simp [hc]
        omega
  have hmain := hgen segments ([], 0)
  simpa [generateMultiCharCandidates] using hmain

theorem segCombos_length_le (dict : List (Str × List Str)) (seg : List Str) :
    (segCombos dict seg).length ≤ 10 := by
  unfold segCombos
  cases hco : collectOptions dict seg with
  | none => simp
  | some charOptions =>
    have := generateCombinations_length_le charOptions [] []
    simpa using this

/-- Amended C8: at most 20 candidates in total and at most 10 per
segmentation, with the per-segmentation cap stopping expansion early; the
whole-set cap instead truncates at copy time: the result is the plain
20-truncation of the concatenated per-segmentation lists, and the expansion
work is the full sum over all segmentations regardless of the cap. -/
theorem generateMultiCharCandidates_caps :
    (∀ (dict : List (Str × List Str)) (segments : List (List Str)),
      (generateMultiCharCandidates dict segments).1.length ≤ 20
      ∧ (generateMultiCharCandidates dict segments).1 =
          ((segments.map (segCombos dict)).flatten).take 20
      ∧ (generateMultiCharCandidates dict segments).2 =
          (segments.map (segCost dict)).sum)
    ∧ (∀ (dict : List (Str × List Str)) (seg : List Str),
        (segCombos dict seg).length ≤ 10)
    ∧ (∀ (opts : List (List Str)) (cur : Str) (res : List Str), 10 ≤ res.length →
        (generateCombinations opts cur res).1 = res ∧
        (generateCombinations opts cur res).2 ≤ opts.length + 1) := by
  refine ⟨?_, segCombos_length_le, generateCombinations_full_stop⟩
  intro dict segments
  refine ⟨?_, generateMultiCharCandidates_take dict segments,
    generateMultiCharCandidates_cost dict segments⟩
  rw [generateMultiCharCandidates_take dict segments]
  simp

/-- Dictionary and segmentation used for the C8 counterexample. -/
def cexDict : List (Str × List Str) :=
  [(lit "a", [lit "b", lit "c", lit "d", lit "e", lit "f",
              lit "g", lit "h", lit "i", lit "j", lit "k"])]

/-- Counterexample to C8 as stated: after two segmentations the whole-set cap
of 20 is already reached, yet a third segmentation is still fully expanded
(the invocation count strictly grows), so the global cap does not stop the
product expansion mid-expansion. -/
theorem generateMultiCharCandidates_cex :
    (generateMultiCharCandidates cexDict [[lit "a"], [lit "a"]]).1.length = 20 ∧
    (generateMultiCharCandidates cexDict [[lit "a"], [lit "a"], [lit "a"]]).2 ≠
      (generateMultiCharCandidates cexDict [[lit "a"], [lit "a"]]).2 := by
  decide

theorem generateMultiCharCandidates_caps_witness :
    ((generateMultiCharCandidates cexDict [[lit "a"]]).1.length ≤ 20
      ∧ (generateMultiCharCandidates cexDict [[lit "a"]]).1 =
          (([[lit "a"]].map (segCombos cexDict)).flatten).take 20
      ∧ (generateMultiCharCandidates cexDict [[lit "a"]]).2 =
          ([[lit "a"]].map (segCost cexDict)).sum)
    ∧ (segCombos cexDict [lit "a"]).length ≤ 10
    ∧ ((generateCombinations [] (lit "z")
          [lit "b", lit "c", lit "d", lit "e", lit "f",
           lit "g", lit "h", lit "i", lit "j", lit "k"]).1 =
        [lit "b", lit "c", lit "d", lit "e", lit "f",
         lit "g", lit "h", lit "i", lit "j", lit "k"] ∧
       (generateCombinations [] (lit "z")
          [lit "b", lit "c", lit "d", lit "e", lit "f",
           lit "g", lit "h", lit "i", lit "j", lit "k"]).2 ≤ 0 + 1) :=
  ⟨generateMultiCharCandidates_caps.1 cexDict [[lit "a"]],
   generateMultiCharCandidates_caps.2.1 cexDict [lit "a"],
   generateMultiCharCandidates_caps.2.2 [] (lit "z")
     [lit "b", lit "c", lit "d", lit "e", lit "f",
      lit "g", lit "h", lit "i", lit "j", lit "k"] (by decide)⟩

/-! ### The uniqueness set and the frequency ranking -/

abbrev FreqMap := List (Str × Int)


/-- Frequency consulted by the ranking: the stored count when the candidate
is present, 0 otherwise. -/
def freqOf (fm : FreqMap) (c : Str) : Int :=
  match mapFind c fm with
  | some v => v
  | none => 0

/-- Comes-before-or-equal order of the ranking comparator: frequency
descending, then canonical string ascending. -/
def pairLe (a b : Str × Int) : Bool :=
  if b.2 < a.2 then true
  else if a.2 < b.2 then false
  else strLt a.1 b.1 || decide (a.1 = b.1)

theorem pairLe_total (a b : Str × Int) : pairLe a b = true ∨ pairLe b a = true := by
  unfold pairLe
  by_cases h1 : b.2 < a.2
  · left; rw [if_pos h1]
  · by_cases h2 : a.2 < b.2
    · right; rw [if_pos h2]
    · rw [if_neg h1, if_neg h2, if_neg h2, if_neg h1]
      cases hab : strLt a.1 b.1 with
      | true => left; simp
      | false =>
        cases hba : strLt b.1 a.1 with
        | true => right; simp
        | false =>
          left
          have := strLt_conn hab hba
          simp [this]

theorem pairLe_trans {a b c : Str × Int} (h1 : pairLe a b = true)
    (h2 : pairLe b c = true) : pairLe a c = true := by
  unfold pairLe at *
  by_cases hba : b.2 < a.2
  · rw [if_pos hba] at h1
    by_cases hcb : c.2 < b.2
    · rw [if_pos (lt_trans hcb hba)]
    · rw [if_neg hcb] at h2
      by_cases hbc : b.2 < c.2
      · rw [if_pos hbc] at h2
        exact absurd h2 (by simp)
      · have : b.2 = c.2 := le_antisymm (not_lt.mp hcb) (not_lt.mp hbc)
        rw [if_pos (this ▸ hba)]
  · rw [if_neg hba] at h1
    by_cases hab : a.2 < b.2
    · rw [if_pos hab] at h1
      exact absurd h1 (by simp)
    · rw [if_neg hab] at h1
      have heab : a.2 = b.2 := le_antisymm (not_lt.mp hba) (not_lt.mp hab)
      by_cases hcb : c.2 < b.2
      · rw [if_pos (heab ▸ hcb)]
      · rw [if_neg hcb] at h2
        by_cases hbc : b.2 < c.2
        · rw [if_pos hbc] at h2
          exact absurd h2 (by simp)
        · rw [if_neg hbc] at h2
          have hebc : b.2 = c.2 := le_antisymm (not_lt.mp hcb) (not_lt.mp hbc)
          rw [if_neg (by omega), if_neg (by omega)]
          rcases Bool.or_eq_true_iff.mp h1 with hs1 | he1
          · rcases Bool.or_eq_true_iff.mp h2 with hs2 | he2
            · simp [strLt_trans hs1 hs2]
            · have := of_decide_eq_true he2
              simp [this ▸ hs1]
          · have := of_decide_eq_true he1
            rw [this]
            exact h2

def insPair (a : Str × Int) : List (Str × Int) → List (Str × Int)
  | [] => [a]
  | b :: t => if pairLe a b then a :: b :: t else b :: insPair a t

def sortPairs : List (Str × Int) → List (Str × Int)
  | [] => []
  | a :: t => insPair a (sortPairs t)

/-- Model of sortCandidatesByFrequency: pair every candidate with its
frequency, sort by the comparator (frequency descending, string ascending; a
strict weak order whose ties are exactly equal pairs, so the sorted
permutation is unique and the model of std::sort is exact), and project the
strings back out. -/
def sortCandidatesByFrequency (fm : FreqMap) (rawCandidates : List Str) : List Str :=
  if rawCandidates = [] then rawCandidates
  else (sortPairs (rawCandidates.map (fun c => (c, freqOf fm c)))).map Prod.fst

theorem insPair_perm (a : Str × Int) (l : List (Str × Int)) :
    List.Perm (insPair a l) (a :: l) := by
  induction l with
  | nil => rfl
  | cons b t ih =>
    rw [insPair]
    split
    · rfl
    · exact List.Perm.trans (List.Perm.cons b ih) (List.Perm.swap a b t)

theorem sortPairs_perm (l : List (Str × Int)) : List.Perm (sortPairs l) l := by
  induction l with
  | nil => rfl
  | cons a t ih =>
    rw [sortPairs]
    exact List.Perm.trans (insPair_perm a (sortPairs t)) (List.Perm.cons a ih)

theorem insPair_sorted {a : Str × Int} {l : List (Str × Int)}
    (h : List.Pairwise (fun x y => pairLe x y = true) l) :
    List.Pairwise (fun x y => pairLe x y = true) (insPair a l) := by
  induction l with
  | nil => simp [insPair]
  | cons b t ih =>
    rw [List.pairwise_cons] at h
    rw [insPair]
    split
    · rename_i h1
      rw [List.pairwise_cons]
      refine ⟨?_, List.pairwise_cons.mpr ⟨h.1, h.2⟩⟩
      intro y hy
      rcases List.mem_cons.mp hy with rfl | hy2
      · exact h1
      · exact pairLe_trans h1 (h.1 y hy2)
    · rename_i h1
      have hba : pairLe b a = true := by
        rcases pairLe_total a b with h2 | h2
        · exact absurd h2 h1
        · exact h2
      rw [List.pairwise_cons]
      constructor
      · intro y hy
        have := (insPair_perm a t).mem_iff.mp hy
        rcases List.mem_cons.mp this with rfl | hy2
        · exact hba
        · exact h.1 y hy2
      · exact ih h.2

theorem sortPairs_sorted (l : List (Str × Int)) :
    List.Pairwise (fun x y => pairLe x y = true) (sortPairs l) := by
  induction l with
  | nil => simp [sortPairs]
  | cons a t ih => exact insPair_sorted ih

/-- C7: the ranking is a permutation of its input ordered by frequency
descending with the lexicographically smaller canonical string first among
equal frequencies, a deterministic total order. -/
theorem sortCandidatesByFrequency_spec (fm : FreqMap) (raw : List Str) :
    List.Perm (sortCandidatesByFrequency fm raw) raw ∧
    List.Pairwise (fun a b =>
      freqOf fm b < freqOf fm a ∨
        (freqOf fm a = freqOf fm b ∧ (strLt a b = true ∨ a = b)))
      (sortCandidatesByFrequency fm raw) := by
  unfold sortCandidatesByFrequency
  split
  · rename_i he
    subst he
    simp
  · rename_i hne
    have hperm0 : List.Perm (sortPairs (raw.map (fun c => (c, freqOf fm c))))
        (raw.map (fun c => (c, freqOf fm c))) := sortPairs_perm _
    constructor
    · have hm := hperm0.map Prod.fst
      rw [List.map_map] at hm
      have hcomp : (Prod.fst ∘ fun c : Str => (c, freqOf fm c)) = id := rfl
      rw [hcomp, List.map_id] at hm
      exact hm
    · have hsnd : ∀ p ∈ sortPairs (raw.map (fun c => (c, freqOf fm c))),
          p.2 = freqOf fm p.1 := by
        intro p hp
        have := hperm0.mem_iff.mp hp
        obtain ⟨c, _, hc⟩ := List.mem_map.mp this
        rw [← hc]
      have hpw := sortPairs_sorted (raw.map (fun c => (c, freqOf fm c)))
      refine List.pairwise_map.mpr (List.Pairwise.imp_of_mem ?_ hpw)
      intro a b ha hb hle
      show freqOf fm b.1 < freqOf fm a.1 ∨
        (freqOf fm a.1 = freqOf fm b.1 ∧ (strLt a.1 b.1 = true ∨ a.1 = b.1))
      rw [← hsnd a ha, ← hsnd b hb]
      unfold pairLe at hle
      by_cases h1 : b.2 < a.2
      · left; exact h1
      · rw [if_neg h1] at hle
        by_cases h2 : a.2 < b.2
        · rw [if_pos h2] at hle
          exact absurd hle (by simp)
        · rw [if_neg h2] at hle
          right
          refine ⟨le_antisymm (not_lt.mp h1) (not_lt.mp h2), ?_⟩
          rcases Bool.or_eq_true_iff.mp hle with hs | he
          · left; exact hs
          · right; exact of_decide_eq_true he

/-! ### The adaptive frequency model -/

/-- The capacity constant MAX_FREQ_ENTRIES from the source. -/
def MAX_FREQ_ENTRIES : Nat := 500

/-- Model of charFrequency[c]++ on a std::map: increment in place if the key
exists, otherwise insert the key at its key-sorted position with
count 0+1 = 1. -/
def mapIncrement (c : Str) : FreqMap → FreqMap
  | [] => [(c, 1)]
  | p :: t =>
    if p.1 = c then (p.1, p.2 + 1) :: t
    else if strLt c p.1 then (c, 1) :: p :: t
    else p :: mapIncrement c t

/-- Model of the linear minimum scan: fold in iteration order keeping the
first strictly smaller count, starting from INT_MAX and the empty string. -/
def minScan (fm : FreqMap) : Int × Str :=
  fm.foldl (fun acc p => if p.2 < acc.1 then (p.2, p.1) else acc) (2147483647, [])

/-- Model of std::map erase by key. -/
def mapErase (k : Str) (fm : FreqMap) : FreqMap := fm.filter (fun p => p.1 ≠ k)

/-- Model of updateCharFrequency: increment (or insert) the committed string,
then, if the table holds more than MAX_FREQ_ENTRIES entries, evict the
scanned minimum entry only when its count is strictly below the committed
string's updated count. The amortized save-to-flash step performs no map
mutation and is not modelled. -/
def updateCharFrequency (fm : FreqMap) (c : Str) : FreqMap :=
  if c.length = 0 then fm
  else
    let fm1 := mapIncrement c fm
    if fm1.length > MAX_FREQ_ENTRIES then
      let m := minScan fm1
      if m.2.length > 0 ∧ m.1 < (mapFind c fm1).getD 0 then mapErase m.2 fm1
      else fm1
    else fm1

theorem mapIncrement_length_le (c : Str) (fm : FreqMap) :
    (mapIncrement c fm).length ≤ fm.length + 1 := by
  induction fm with
  | nil => simp [mapIncrement]
  | cons p t ih =>
    rw [mapIncrement]
    split
    · simp
    · split
      · simp
      · simpa using Nat.add_le_add_right ih 1

theorem updateCharFrequency_length_le (fm : FreqMap) (c : Str) :
    (updateCharFrequency fm c).length ≤ fm.length + 1 := by
  unfold updateCharFrequency
  split
  · omega
  · dsimp only
    split
    · split
      · exact le_trans (List.length_filter_le _ _) (mapIncrement_length_le c fm)
      · exact mapIncrement_length_le c fm
    · exact mapIncrement_length_le c fm

theorem mapFind_eq_none_iff {α : Type} {k : Str} {fm : List (Str × α)} :
    mapFind k fm = none ↔ ∀ q ∈ fm, q.1 ≠ k := by
  induction fm with
  | nil => simp [mapFind]
  | cons p t ih =>
    rw [mapFind]
    by_cases he : p.1 = k
    · rw [if_pos he]
      constructor
      · intro h; exact absurd h (Option.some_ne_none _)
      · intro h; exact absurd he (h p (List.mem_cons_self p t))
    · rw [if_neg he]
      rw [ih]
      constructor
      · intro h q hq
        rcases List.mem_cons.mp hq with rfl | hq2
        · exact he
        · exact h q hq2
      · intro h q hq
        exact h q (List.mem_cons_of_mem p hq)

theorem mapIncrement_of_absent {c : Str} {fm : FreqMap}
    (h : mapFind c fm = none) :
    (mapIncrement c fm).length = fm.length + 1 ∧
    (∀ q ∈ mapIncrement c fm, q ∈ fm ∨ q = (c, 1)) ∧
    mapFind c (mapIncrement c fm) = some 1 := by
  induction fm with
  | nil => simp [mapIncrement, mapFind]
  | cons p t ih =>
    rw [mapFind] at h
    split at h
    · exact absurd h (by simp)
    · rename_i hne
      have hih := ih h
      rw [mapIncrement]
      rw [if_neg (fun he => hne he)]
      split
      · refine ⟨by simp, ?_, ?_⟩
        · intro q hq
          rcases List.mem_cons.mp hq with rfl | hq2
          · right; rfl
          · left; exact hq2
        · rw [mapFind, if_pos rfl]
      · refine ⟨by simpa using hih.1, ?_, ?_⟩
        · intro q hq
          rcases List.mem_cons.mp hq with rfl | hq2
          · left; simp
          · rcases hih.2.1 q hq2 with h2 | h2
            · left; simp [h2]
            · right; exact h2
        · rw [mapFind, if_neg hne]
          exact hih.2.2

theorem minScan_le (fm : FreqMap) : ∀ q ∈ fm, (minScan fm).1 ≤ q.2 := by
  have hgen : ∀ (l : FreqMap) (acc : Int × Str),
      (l.foldl (fun acc p => if p.2 < acc.1 then (p.2, p.1) else acc) acc).1 ≤ acc.1 ∧
      ∀ q ∈ l, (l.foldl (fun acc p => if p.2 < acc.1 then (p.2, p.1) else acc) acc).1 ≤ q.2 := by
    intro l
    induction l with
    | nil => intro acc; simp
    | cons p t ih =>
      intro acc
      rw [List.foldl_cons]
      have hstep : (if p.2 < acc.1 then (p.2, p.1) else acc).1 ≤ acc.1 ∧
          (if p.2 < acc.1 then (p.2, p.1) else acc).1 ≤ p.2 := by
        split
        · rename_i hlt
          exact ⟨le_of_lt hlt, le_refl _⟩
        · rename_i hge
          exact ⟨le_refl _, not_lt.mp hge⟩
      have hih := ih (if p.2 < acc.1 then (p.2, p.1) else acc)
      refine ⟨le_trans hih.1 hstep.1, ?_⟩
      intro q hq
      rcases List.mem_cons.mp hq with rfl | hq2
      · exact le_trans hih.1 hstep.2
      · exact hih.2 q hq2
  exact fun q hq => (hgen fm (2147483647, [])).2 q hq

theorem minScan_init_or_mem (fm : FreqMap) :
    minScan fm = (2147483647, []) ∨ ((minScan fm).2, (minScan fm).1) ∈ fm := by
  have hgen : ∀ (l : FreqMap) (acc : Int × Str),
      (l.foldl (fun acc p => if p.2 < acc.1 then (p.2, p.1) else acc) acc) = acc ∨
      (((l.foldl (fun acc p => if p.2 < acc.1 then (p.2, p.1) else acc) acc)).2,
        ((l.foldl (fun acc p => if p.2 < acc.1 then (p.2, p.1) else acc) acc)).1) ∈ l := by
    intro l
    induction l with
    | nil => intro acc; left; rfl
    | cons p t ih =>
      intro acc
      rw [List.foldl_cons]
      rcases ih (if p.2 < acc.1 then (p.2, p.1) else acc) with h | h
      · rw [h]
        split
        · right; simp
        · left; rfl
      · right
        exact List.mem_cons_of_mem p h
  exact hgen fm (2147483647, [])

theorem minScan_ge_one {fm : FreqMap} (h : ∀ q ∈ fm, (1 : Int) ≤ q.2) :
    (1 : Int) ≤ (minScan fm).1 := by
  rcases minScan_init_or_mem fm with he | hm
  · rw [he]; norm_num
  · exact h _ hm

/-- Amended C1: each commit grows the table by at most one entry, so a table
within capacity holds at most MAX_FREQ_ENTRIES + k entries after k commits.
The bound MAX_FREQ_ENTRIES itself is not an invariant. -/
theorem updateCharFrequency_growth (fm : FreqMap) (cs : List Str)
    (h : fm.length ≤ MAX_FREQ_ENTRIES) :
    (List.foldl updateCharFrequency fm cs).length ≤ MAX_FREQ_ENTRIES + cs.length := by
  have hgen : ∀ (l : List Str) (m : FreqMap),
      (List.foldl updateCharFrequency m l).length ≤ m.length + l.length := by
    intro l
    induction l with
    | nil => intro m; simp
    | cons c t ih =>
      intro m
      rw [List.foldl_cons]
      calc (List.foldl updateCharFrequency (updateCharFrequency m c) t).length
          ≤ (updateCharFrequency m c).length + t.length := ih _
        _ ≤ m.length + 1 + t.length :=
            Nat.add_le_add_right (updateCharFrequency_length_le m c) _
        _ = m.length + (c :: t).length := by simp; omega
  calc (List.foldl updateCharFrequency fm cs).length ≤ fm.length + cs.length := hgen cs fm
    _ ≤ MAX_FREQ_ENTRIES + cs.length := Nat.add_le_add_right h _

theorem updateCharFrequency_growth_witness :
    (List.foldl updateCharFrequency [] [lit "x"]).length ≤ MAX_FREQ_ENTRIES + 1 :=
  updateCharFrequency_growth [] [lit "x"] (by decide)

/-- A full table in which every entry has count 1. -/
def freqFull : FreqMap := (List.range 500).map (fun i => (List.replicate (i + 1) 'a', (1 : Int)))

theorem freqFull_counts : ∀ q ∈ freqFull, q.2 = (1 : Int) := by
  intro q hq
  unfold freqFull at hq
  obtain ⟨i, _, hqi⟩ := List.mem_map.mp hq
  rw [← hqi]

theorem freqFull_no_b : mapFind (lit "b") freqFull = none := by
  rw [mapFind_eq_none_iff]
  intro q hq
  unfold freqFull at hq
  obtain ⟨i, _, hqi⟩ := List.mem_map.mp hq
  rw [← hqi]
  intro hcon
  simp only [List.replicate_succ] at hcon
  have : 'a' = 'b' := by
    have := List.cons.injEq 'a' (List.replicate i 'a') 'b' [] ▸ hcon
    exact (List.cons.inj hcon).1
  exact absurd this (by decide)

theorem freqFull_length : freqFull.length = 500 := by
  unfold freqFull
  simp

/-- Counterexample to C1: freqFull is within capacity, yet a single commit of
a string absent from the table leaves 501 entries, because the freshly
inserted entry carries the minimum count and the eviction guard demands a
strictly smaller count. -/
theorem updateCharFrequency_cex :
    freqFull.length ≤ MAX_FREQ_ENTRIES ∧
    MAX_FREQ_ENTRIES < (List.foldl updateCharFrequency freqFull [lit "b"]).length := by
  have hb : (lit "b") ≠ [] := by decide
  have habs := mapIncrement_of_absent freqFull_no_b
  have hcount1 : ∀ q ∈ mapIncrement (lit "b") freqFull, (1 : Int) ≤ q.2 := by
    intro q hq
    rcases habs.2.1 q hq with h2 | h2
    · rw [freqFull_counts q h2]
    · rw [h2]
  have hmin := minScan_ge_one hcount1
  constructor
  · rw [freqFull_length]; decide
  · rw [List.foldl_cons, List.foldl_nil]
    unfold updateCharFrequency
    rw [if_neg (by simpa using hb)]
    dsimp only
    rw [if_pos (by rw [habs.1, freqFull_length]; decide)]
    rw [if_neg ?hguard]
    case hguard =>
      intro hcon
      have := hcon.2
      rw [habs.2.2] at this
      simp at this
      omega
    rw [habs.1, freqFull_length]
    decide

theorem mapIncrement_mem {c : Str} {t : FreqMap} :
    ∀ r ∈ mapIncrement c t, r ∈ t ∨ r.1 = c := by
  induction t with
  | nil =>
    intro r hr
    simp [mapIncrement] at hr
    right
    rw [hr]
  | cons u v ihv =>
    intro r hr
    rw [mapIncrement] at hr
    split at hr
    · rename_i heq
      rcases List.mem_cons.mp hr with rfl | hr2
      · right; exact heq
      · left; exact List.mem_cons_of_mem u hr2
    · split at hr
      · rcases List.mem_cons.mp hr with rfl | hr2
        · right; rfl
        · left; exact hr2
      · rcases List.mem_cons.mp hr with rfl | hr2
        · left; simp
        · rcases ihv r hr2 with h3 | h3
          · left; exact List.mem_cons_of_mem u h3
          · right; exact h3

/-- Key order invariant of a std::map snapshot: entries strictly increasing
by key. -/
def MapSorted (fm : FreqMap) : Prop :=
  List.Pairwise (fun p q => strLt p.1 q.1 = true) fm

theorem mapIncrement_sorted {c : Str} {fm : FreqMap} (h : MapSorted fm) :
    MapSorted (mapIncrement c fm) := by
  induction fm with
  | nil => simp [mapIncrement, MapSorted]
  | cons p t ih =>
    unfold MapSorted at h
    rw [List.pairwise_cons] at h
    rw [mapIncrement]
    split
    · unfold MapSorted
      rw [List.pairwise_cons]
      exact ⟨h.1, h.2⟩
    · split
      · rename_i hne hlt
        unfold MapSorted
        rw [List.pairwise_cons]
        constructor
        · intro q hq
          rcases List.mem_cons.mp hq with rfl | hq2
          · exact hlt
          · exact strLt_trans hlt (h.1 q hq2)
        · rw [List.pairwise_cons]
          exact ⟨h.1, h.2⟩
      · rename_i hne hnlt
        unfold MapSorted
        rw [List.pairwise_cons]
        constructor
        · intro q hq
          by_cases hqt : q ∈ t
          · exact h.1 q hqt
          · rcases mapIncrement_mem q hq with h3 | h3
            · exact absurd h3 hqt
            · rw [h3]
              cases hpc : strLt p.1 c with
              | true => rfl
              | false =>
                have hcp : strLt c p.1 = false := by
                  cases hcp2 : strLt c p.1 with
                  | false => rfl
                  | true => exact absurd hcp2 hnlt
                exact absurd (strLt_conn hpc hcp) hne
        · exact ih h.2

theorem mapSorted_count_unique {fm : FreqMap} (h : MapSorted fm) {k : Str}
    {v w : Int} (hv : (k, v) ∈ fm) (hw : (k, w) ∈ fm) : v = w := by
  induction fm with
  | nil => simp at hv
  | cons p t ih =>
    unfold MapSorted at h
    rw [List.pairwise_cons] at h
    rcases List.mem_cons.mp hv with rfl | hv2
    · rcases List.mem_cons.mp hw with he | hw2
      · exact (Prod.mk.injEq _ _ _ _ ▸ he.symm).2
      · exact absurd rfl (strLt_ne (h.1 (k, w) hw2))
    · rcases List.mem_cons.mp hw with he | hw2
      · have := strLt_ne (h.1 (k, v) hv2)
        rw [← he] at this
        exact absurd rfl this
      · exact ih h.2 hv2 hw2

/-- C2: whenever the commit-path frequency update removes an entry, that entry
has the (scanned) minimum count in the post-increment table and its count is
strictly below the just-updated entry's count; no entry with a count greater
than or equal to the updated entry's count is ever removed. -/
theorem updateCharFrequency_evict_min (fm : FreqMap) (c : Str) (p : Str × Int)
    (hsort : MapSorted fm) (hc : c ≠ [])
    (hp : p ∈ mapIncrement c fm) :
    p ∈ updateCharFrequency fm c ∨
      ((∀ q ∈ mapIncrement c fm, p.2 ≤ q.2) ∧
        p.2 < (mapFind c (mapIncrement c fm)).getD 0) := by
  unfold updateCharFrequency
  rw [if_neg (by simpa using hc)]
  dsimp only
  by_cases hsz : (mapIncrement c fm).length > MAX_FREQ_ENTRIES
  · rw [if_pos hsz]
    by_cases hguard : (minScan (mapIncrement c fm)).2.length > 0 ∧
        (minScan (mapIncrement c fm)).1 < (mapFind c (mapIncrement c fm)).getD 0
    · rw [if_pos hguard]
      by_cases hpk : p.1 = (minScan (mapIncrement c fm)).2
      · -- p is the evicted entry
        right
        have hmem : ((minScan (mapIncrement c fm)).2, (minScan (mapIncrement c fm)).1) ∈
            mapIncrement c fm := by
          rcases minScan_init_or_mem (mapIncrement c fm) with he | hm
          · rw [he] at hguard
            simp at hguard
          · exact hm
        have hsort1 : MapSorted (mapIncrement c fm) := mapIncrement_sorted hsort
        have hpv : p.2 = (minScan (mapIncrement c fm)).1 := by
          have hp2 : ((minScan (mapIncrement c fm)).2, p.2) ∈ mapIncrement c fm := by
            rw [← hpk]
            exact hp
          exact mapSorted_count_unique hsort1 hp2 hmem
        constructor
        · intro q hq
          rw [hpv]
          exact minScan_le (mapIncrement c fm) q hq
        · rw [hpv]
          exact hguard.2
      · left
        unfold mapErase
        rw [List.mem_filter]
        exact ⟨hp, by simpa using hpk⟩
    · rw [if_neg hguard]
      left
      exact hp
  · rw [if_neg hsz]
    left
    exact hp

theorem updateCharFrequency_evict_min_witness :
    ((lit "x", (1 : Int)) ∈ updateCharFrequency [] (lit "x") ∨
      ((∀ q ∈ mapIncrement (lit "x") [], (1 : Int) ≤ q.2) ∧
        (1 : Int) < (mapFind (lit "x") (mapIncrement (lit "x") [])).getD 0)) :=
  updateCharFrequency_evict_min [] (lit "x") (lit "x", 1)
    (by unfold MapSorted; simp) (by decide) (by decide)

/-! ### updateCandidates: lookup, uniqueness set, truncation, ranking -/

/-- Candidates in the order the search encounters them: the exact-match
entry, or the concatenated prefix-match entries, with the multi-character
segmentation fallback when no key starts with the buffer and the buffer has
at least 4 characters. -/
def encountered (dict : List (Str × List Str)) (buf : Str) : List Str :=
  match mapFind buf dict with
  | some chars => chars
  | none =>
    let pref := dict.filter (fun p => buf.isPrefixOf p.1)
    (pref.map Prod.snd).flatten ++
      (if pref = [] ∧ 4 ≤ buf.length then
        (generateMultiCharCandidates dict (segmentPinyin dict buf)).1
      else [])

/-- The uniqueness set of updateCandidates: every encountered candidate
inserted into a std::set of String. -/
def uniqueCandidates (dict : List (Str × List Str)) (buf : Str) : List Str :=
  uniqueList (encountered dict buf)

/-- The rawCandidates vector of updateCandidates: iterate the uniqueness set
(in its ascending order) and stop after 20 candidates. -/
def rawCandidates (dict : List (Str × List Str)) (buf : Str) : List Str :=
  (uniqueCandidates dict buf).take 20

/-- Amended C3: before ranking, the unique-candidate collection is truncated
to the 20 smallest candidates in lexicographic (set-iteration) order — the
sorted deduplication of the encountered candidates — not to the first 20 in
first-seen order. -/
theorem rawCandidates_truncation (dict : List (Str × List Str)) (buf : Str) :
    rawCandidates dict buf = (sortStr (encountered dict buf).dedup).take 20 ∧
    List.Pairwise (fun x y => strLt x y = true) (rawCandidates dict buf) ∧
    (∀ x, x ∈ uniqueCandidates dict buf ↔ x ∈ encountered dict buf) ∧
    (rawCandidates dict buf).length ≤ 20 := by
  refine ⟨?_, ?_, ?_, ?_⟩
  · unfold rawCandidates uniqueCandidates
    rw [uniqueList_eq_sortStr]
  · exact List.Pairwise.sublist (List.take_sublist _ _) (uniqueList_sorted _)
  · exact uniqueList_mem _
  · unfold rawCandidates
    simp

/-- Dictionary for the C3 counterexample: one exact-match entry with 21
distinct candidates whose first-encountered element is lexicographically
largest. -/
def cexDict3 : List (Str × List Str) :=
  [(lit "ni",
    [lit "z", lit "a", lit "b", lit "c", lit "d", lit "e", lit "f",
     lit "g", lit "h", lit "i", lit "j", lit "k", lit "l", lit "m",
     lit "n", lit "o", lit "p", lit "q", lit "r", lit "s", lit "t"])]

/-- Counterexample to C3 as stated: the retained 20 candidates are not the
first 20 in first-seen order — the first-encountered candidate is dropped in
favour of lexicographically smaller later ones. -/
theorem rawCandidates_firstseen_cex :
    rawCandidates cexDict3 (lit "ni") ≠
      ((encountered cexDict3 (lit "ni")).dedup).take 20 ∧
    lit "z" ∈ ((encountered cexDict3 (lit "ni")).dedup).take 20 ∧
    lit "z" ∉ rawCandidates cexDict3 (lit "ni") := by
  refine ⟨by decide, by decide, by decide⟩

/-! ### The composition state machine -/

/-- The InputMode enumeration of input_method.h. -/
inductive InputMode
  | MODE_CHS
  | MODE_ENG
  | MODE_NUM
deriving DecidableEq

/-- The mutable session state: the input_method globals, the static locals
of handlePinyinInput, and the mode flags and symbol multi-tap state of
main.cpp. Keys and timestamps are character codes and milliseconds. -/
structure IMState where
  inputMode : InputMode
  engUppercase : Bool
  symbolMode : Bool
  inputBuffer : Str
  pinyinBuffer : Str
  candidates : List Str
  candidateIndex : Nat
  composing : Bool
  charFrequency : FreqMap
  lastPinyinKey : Nat
  lastPinyinTime : Nat
  pinyinKeyIndex : Nat
  lastSymbolKey : Nat
  lastSymbolIndex : Nat
deriving DecidableEq

/-- 32-bit unsigned difference of millis() timestamps. -/
def sub32 (now last : Nat) : Nat := (now + 4294967296 - last) % 4294967296

/-- The pinyin T9 cluster table pinyinKeymap, indexed by digit value. -/
def pinyinKeymap (d : Nat) : List Char :=
  match d with
  | 2 => lit "abc"
  | 3 => lit "def"
  | 4 => lit "ghi"
  | 5 => lit "jkl"
  | 6 => lit "mno"
  | 7 => lit "pqrs"
  | 8 => lit "tuv"
  | 9 => lit "wxyz"
  | _ => []

/-- Model of updateCandidates as a state operation: clear and recompute the
candidate list from the pending buffer and reset the selection index. -/
def updateCandidates (dict : List (Str × List Str)) (st : IMState) : IMState :=
  if st.pinyinBuffer = [] then
    { st with candidates := [], candidateIndex := 0 }
  else
    { st with
      candidates :=
        sortCandidatesByFrequency st.charFrequency (rawCandidates dict st.pinyinBuffer),
      candidateIndex := 0 }

/-- Model of handlePinyinInput for a key press (key is the character code of
the pressed digit, now the millis() sample): multi-tap cycling within the
800 ms window, then lastPinyinKey/lastPinyinTime update, then
updateCandidates, then the composing flag. -/
def handlePinyinInput (dict : List (Str × List Str)) (key now : Nat)
    (st : IMState) : IMState :=
  let keyChars := pinyinKeymap (key - 48)
  if keyChars.length = 0 then st
  else
    let st1 :=
      if key = st.lastPinyinKey ∧ sub32 now st.lastPinyinTime < 800 then
        let idx := (st.pinyinKeyIndex + 1) % keyChars.length
        let buf :=
          if 0 < st.pinyinBuffer.length then st.pinyinBuffer.dropLast
          else st.pinyinBuffer
        { st with pinyinKeyIndex := idx, pinyinBuffer := buf ++ [keyChars.getD idx 'a'] }
      else
        { st with pinyinKeyIndex := 0, pinyinBuffer := st.pinyinBuffer ++ [keyChars.getD 0 'a'] }
    let st2 := { st1 with lastPinyinKey := key, lastPinyinTime := now }
    let st3 := updateCandidates dict st2
    { st3 with composing := true }

/-- Model of commitCandidate: when a candidate is selectable, append it to
the committed text, update the frequency model, and clear the composition
state; otherwise do nothing. -/
def commitCandidate (st : IMState) : IMState :=
  if st.candidates ≠ [] ∧ st.candidateIndex < st.candidates.length then
    let selectedChar := st.candidates.getD st.candidateIndex []
    { st with
      inputBuffer := st.inputBuffer ++ selectedChar,
      charFrequency := updateCharFrequency st.charFrequency selectedChar,
      pinyinBuffer := [],
      candidates := [],
      composing := false,
      candidateIndex := 0 }
  else st

/-- Model of the mode-cycling branch of handleKeypress for key A in
main.cpp: advance the mode cycle, clear the pinyin composition and candidate
state, and reset the symbol multi-tap state. -/
def modeSwitchA (st : IMState) : IMState :=
  let st1 :=
    if st.inputMode = InputMode.MODE_CHS then
      { st with inputMode := InputMode.MODE_ENG, engUppercase := false }
    else if st.inputMode = InputMode.MODE_ENG ∧ st.engUppercase = false then
      { st with engUppercase := true }
    else if st.inputMode = InputMode.MODE_ENG ∧ st.engUppercase = true then
      { st with inputMode := InputMode.MODE_NUM, symbolMode := false }
    else if st.inputMode = InputMode.MODE_NUM ∧ st.symbolMode = false then
      { st with symbolMode := true }
    else
      { st with inputMode := InputMode.MODE_CHS, engUppercase := false, symbolMode := false }
  { st1 with pinyinBuffer := [], composing := false, candidates := [],
             candidateIndex := 0, lastSymbolKey := 0, lastSymbolIndex := 0 }

/-- The reset session state at boot. -/
def initState : IMState :=
  { inputMode := InputMode.MODE_CHS, engUppercase := false, symbolMode := false,
    inputBuffer := [], pinyinBuffer := [], candidates := [], candidateIndex := 0,
    composing := false, charFrequency := [], lastPinyinKey := 0,
    lastPinyinTime := 0, pinyinKeyIndex := 0, lastSymbolKey := 0,
    lastSymbolIndex := 0 }

/-- Amended C4: switching alphabet mode clears the pending composition
buffer, candidate list, selection index and composing flag, resets the
symbol multi-tap state, and leaves the committed text and the frequency
table unchanged; the pinyin multi-tap decoder state (last key pressed, last
press timestamp, cycle index) is NOT reset and survives the mode switch. -/
theorem modeSwitchA_effects (st : IMState) :
    (modeSwitchA st).pinyinBuffer = [] ∧
    (modeSwitchA st).candidates = [] ∧
    (modeSwitchA st).candidateIndex = 0 ∧
    (modeSwitchA st).composing = false ∧
    (modeSwitchA st).lastSymbolKey = 0 ∧
    (modeSwitchA st).lastSymbolIndex = 0 ∧
    (modeSwitchA st).inputBuffer = st.inputBuffer ∧
    (modeSwitchA st).charFrequency = st.charFrequency ∧
    (modeSwitchA st).lastPinyinKey = st.lastPinyinKey ∧
    (modeSwitchA st).lastPinyinTime = st.lastPinyinTime ∧
    (modeSwitchA st).pinyinKeyIndex = st.pinyinKeyIndex := by
  unfold modeSwitchA
  dsimp only
  split
  · simp
  · split
    · simp
    · split
      · simp
      · split
        · simp
        · simp

/-- Session state for the C4 counterexample: a press of key 2 in pinyin mode
has just been decoded. -/
def cexState : IMState :=
  { inputMode := InputMode.MODE_CHS, engUppercase := false, symbolMode := false,
    inputBuffer := lit "hi", pinyinBuffer := lit "a", candidates := [],
    candidateIndex := 0, composing := true, charFrequency := [],
    lastPinyinKey := 50, lastPinyinTime := 100, pinyinKeyIndex := 0,
    lastSymbolKey := 0, lastSymbolIndex := 0 }

/-- Counterexample to C4 as stated: after a mode switch the multi-tap
decoder state is not reset — lastPinyinKey is still key 2 (code 50) and the
timestamp survives — so the conjunction claimed by C4 fails. -/
theorem modeSwitchA_cex :
    ¬ ((modeSwitchA cexState).pinyinBuffer = [] ∧
       (modeSwitchA cexState).candidates = [] ∧
       (modeSwitchA cexState).candidateIndex = 0 ∧
       (modeSwitchA cexState).composing = false ∧
       (modeSwitchA cexState).lastPinyinKey = 0 ∧
       (modeSwitchA cexState).lastPinyinTime = 0 ∧
       (modeSwitchA cexState).pinyinKeyIndex = 0 ∧
       (modeSwitchA cexState).inputBuffer = cexState.inputBuffer) := by
  decide

/-- C6: multi-tap decoding in handlePinyinInput. Pressing the same key again
within the 800 ms window advances the cycle index modulo the cluster length
and replaces the last code unit of the pending buffer; otherwise the cycle
index resets and the first cluster letter is appended. Three presses of key
2 within the window on an empty buffer yield c, a fourth press wraps back to
a, and a second press after the window expires appends a second a. -/
theorem handlePinyinInput_multitap :
    (∀ (dict : List (Str × List Str)) (key now : Nat) (st : IMState),
      pinyinKeymap (key - 48) ≠ [] →
      key = st.lastPinyinKey →
      sub32 now st.lastPinyinTime < 800 →
      st.pinyinBuffer ≠ [] →
      ((handlePinyinInput dict key now st).pinyinKeyIndex =
          (st.pinyinKeyIndex + 1) % (pinyinKeymap (key - 48)).length ∧
        (handlePinyinInput dict key now st).pinyinBuffer =
          st.pinyinBuffer.dropLast ++
            [(pinyinKeymap (key - 48)).getD
              ((st.pinyinKeyIndex + 1) % (pinyinKeymap (key - 48)).length) 'a'] ∧
        (handlePinyinInput dict key now st).lastPinyinKey = key ∧
        (handlePinyinInput dict key now st).lastPinyinTime = now))
    ∧ (∀ (dict : List (Str × List Str)) (key now : Nat) (st : IMState),
      pinyinKeymap (key - 48) ≠ [] →
      ¬ (key = st.lastPinyinKey ∧ sub32 now st.lastPinyinTime < 800) →
      ((handlePinyinInput dict key now st).pinyinKeyIndex = 0 ∧
        (handlePinyinInput dict key now st).pinyinBuffer =
          st.pinyinBuffer ++ [(pinyinKeymap (key - 48)).getD 0 'a'] ∧
        (handlePinyinInput dict key now st).lastPinyinKey = key ∧
        (handlePinyinInput dict key now st).lastPinyinTime = now))
    ∧ (handlePinyinInput [] 50 200
        (handlePinyinInput [] 50 100
          (handlePinyinInput [] 50 0 initState))).pinyinBuffer = lit "c"
    ∧ (handlePinyinInput [] 50 300
        (handlePinyinInput [] 50 200
          (handlePinyinInput [] 50 100
            (handlePinyinInput [] 50 0 initState)))).pinyinBuffer = lit "a"
    ∧ (handlePinyinInput [] 50 900
        (handlePinyinInput [] 50 0 initState)).pinyinBuffer = lit "aa" := by
  refine ⟨?_, ?_, by decide, by decide, by decide⟩
  · intro dict key now st hkc hsame hwin hbuf
    unfold handlePinyinInput
    rw [if_neg (by simpa using hkc)]
    dsimp only
    rw [if_pos ⟨hsame, hwin⟩]
    dsimp only
    rw [if_pos (by simpa using List.length_pos.mpr hbuf)]
    unfold updateCandidates
    split
    · exact ⟨rfl, rfl, rfl, rfl⟩
    · exact ⟨rfl, rfl, rfl, rfl⟩
  · intro dict key now st hkc hncond
    unfold handlePinyinInput
    rw [if_neg (by simpa using hkc)]
    dsimp only
    rw [if_neg hncond]
    dsimp only
    unfold updateCandidates
    split
    · exact ⟨rfl, rfl, rfl, rfl⟩
    · exact ⟨rfl, rfl, rfl, rfl⟩

/-- C10: with no selectable candidate (empty list or out-of-range selection
index) commitCandidate is a silent no-op: the whole state, including the
committed text, the composition state and the frequency table, is unchanged. -/
theorem commitCandidate_noop (st : IMState)
    (h : st.candidates = [] ∨ ¬ st.candidateIndex < st.candidates.length) :
    commitCandidate st = st := by
  unfold commitCandidate
  rw [if_neg]
  intro hc
  rcases h with h1 | h1
  · exact hc.1 h1
  · exact h1 hc.2

theorem commitCandidate_noop_witness : commitCandidate initState = initState :=
  commitCandidate_noop initState (Or.inl rfl)
